import Mathlib

/-!
# Shallow embedding of the `hotk` hotkey runtime (`src/index.ts`)

This file embeds the TypeScript module `src/index.ts` of the `hotk`
repository in Lean 4 and proves properties of it.

Modelling conventions:
* The native core (`@hotk/core`, an external collaborator accessed only
  through its contract) is modelled by a `HotkManager` record of
  deterministic result functions (`register`, `unregister`, `getHotkeyId`).
* JavaScript module-level mutable state (`globals`, `locals`, `root`,
  `timeoutRecoverRoot`, `HotKey.lastHotKey`, `HotKey.lastFire`) becomes an
  explicit `MState` record threaded through every operation.
* JavaScript objects keyed by numbers (`{ [key: number]: HotKey }`) are
  association lists kept sorted by key in ascending order, mirroring the
  ascending iteration order of integer-keyed JS objects
  (`Object.values`).
* JavaScript exceptions (`throw new Error(...)`) become
  `Except (String × MState) MState`: an error carries the state at the
  moment of the throw, because in JS the mutations made before a throw
  persist.
* `setTimeout`/`clearInterval` are modelled by a list of live timers plus
  a fresh-id counter; `timeoutRecoverRoot` stores the id of the timer
  handle held by the module variable of the same name.
* JavaScript numbers used as timeouts are modelled by `JsNum`
  (NaN, +Infinity, -Infinity, or an exact integer); timestamps
  (`Date.now()`) are integers.
* Object reference identity (`===` on `HotKey` objects) is modelled by a
  `ref : Nat` tag carried by each hotkey; action callbacks are modelled
  as opaque numeric tags whose invocation is recorded in a call trace
  (`Call.act`), alongside every native register/unregister call.
-/

namespace Hotk

/-- Enum representing the type of key stroke (source: `enum Stroke`). -/
inductive Stroke : Type where
  | Single
  | Double
deriving DecidableEq, Repr

/-- Modifier keys (`Mod` enum of `@hotk/core`), modelled as numeric codes. -/
abbrev Mod := Nat

/-- Physical key codes (`KeyCode` enum of `@hotk/core`), modelled as numeric codes. -/
abbrev KeyCode := Nat

/-- A JavaScript number as used for the timeout fields: NaN, the two
infinities, or an exact integer. -/
inductive JsNum : Type where
  | nan
  | posInf
  | negInf
  | fin (n : Int)
deriving DecidableEq, Repr

/-- Model of `isNaN(x)` for the modelled JS numbers. -/
def JsNum.isNaN : JsNum → Bool
  | .nan => true
  | _ => false

/-- Whether the modelled JS number is a finite value. -/
def JsNum.isFinite : JsNum → Bool
  | .fin _ => true
  | _ => false

/-- Model of `Math.min(a, b)` on modelled JS numbers (NaN-propagating). -/
def jsMin : JsNum → JsNum → JsNum
  | .nan, _ => .nan
  | _, .nan => .nan
  | .negInf, _ => .negInf
  | _, .negInf => .negInf
  | .posInf, b => b
  | a, .posInf => a
  | .fin a, .fin b => .fin (min a b)

/-- The JS comparison `x <= t` where `x` is a finite number (a difference
of timestamps) and `t` a possibly non-finite JS number (a timeout).
Comparisons with NaN are false. -/
def jsLeInt (x : Int) : JsNum → Bool
  | .nan => false
  | .posInf => true
  | .negInf => false
  | .fin t => x ≤ t

/-- The sentinel timestamp `new Date(-8640000000000000).getTime()` used by
the source as "never fired". -/
def neverFired : Int := -8640000000000000

/-- The result record returned by the native core's `register`/`unregister`
calls: `Result{ id, ok }` (`result.isOk()` is the `ok` field). -/
structure NativeResult : Type where
  id : Nat
  ok : Bool
deriving DecidableEq, Repr

/-- Deterministic model of the native core `@hotk/core`: what
`innerManager.register(mods, code)`, `innerManager.unregister(mods, code)`
and `getHotkeyId(code, mods)` return for each combination. -/
structure HotkManager : Type where
  register : List Mod → KeyCode → NativeResult
  unregister : List Mod → KeyCode → NativeResult
  getHotkeyId : KeyCode → List Mod → Nat

/-- All the per-instance fields of class `HotKey`, parametrised by the
hotkey type itself so that `HotKey` can be tied as a nested inductive.
Field names follow the TypeScript private fields; `ref` is the extra tag
modelling JS object identity, and `_action` is the opaque tag that stands
for the action callback. -/
structure HotKeyData (H : Type) : Type where
  mods : List Mod
  code : KeyCode
  id : Nat
  ref : Nat
  _description : Option String
  _stroke : Stroke
  _strokeTimeout : JsNum
  _action : Nat
  _subactions : List H
  _subactionsTimeout : JsNum
  _backToRoot : Bool
  _global : Bool

/-- The `HotKey` class: a record of fields, with children (`_subactions`)
of the same type. -/
inductive HotKey : Type where
  | mk (data : HotKeyData HotKey)

/-- Projection to the field record. -/
def HotKey.data : HotKey → HotKeyData HotKey
  | .mk d => d

def HotKey.mods (h : HotKey) : List Mod := h.data.mods
def HotKey.code (h : HotKey) : KeyCode := h.data.code
def HotKey.id (h : HotKey) : Nat := h.data.id
def HotKey.ref (h : HotKey) : Nat := h.data.ref
def HotKey._description (h : HotKey) : Option String := h.data._description
def HotKey._stroke (h : HotKey) : Stroke := h.data._stroke
def HotKey._strokeTimeout (h : HotKey) : JsNum := h.data._strokeTimeout
def HotKey._action (h : HotKey) : Nat := h.data._action
def HotKey._subactions (h : HotKey) : List HotKey := h.data._subactions
def HotKey._subactionsTimeout (h : HotKey) : JsNum := h.data._subactionsTimeout
def HotKey._backToRoot (h : HotKey) : Bool := h.data._backToRoot
def HotKey._global (h : HotKey) : Bool := h.data._global

/-- The exported factory `hotKey(mods, keyCode)` / the `HotKey`
constructor: `id` is computed by the native core's `getHotkeyId(code,
mods)`; defaults follow the field initialisers of the class. `ref` is the
object-identity tag of the freshly created object. -/
def hotKey (env : HotkManager) (ref : Nat) (mods : List Mod) (keyCode : KeyCode) : HotKey :=
  .mk { mods := mods, code := keyCode, id := env.getHotkeyId keyCode mods, ref := ref,
        _description := none, _stroke := .Single, _strokeTimeout := .fin 1000,
        _action := 0, _subactions := [], _subactionsTimeout := .fin 1000,
        _backToRoot := true, _global := false }

/-- Builder `description(...)`. -/
def HotKey.description : HotKey → String → HotKey
  | .mk d, s => .mk { d with _description := some s }

/-- Builder `stroke(...)`. -/
def HotKey.stroke : HotKey → Stroke → HotKey
  | .mk d, s => .mk { d with _stroke := s }

/-- Builder `strokeTimeout(...)`. -/
def HotKey.strokeTimeout : HotKey → JsNum → HotKey
  | .mk d, t => .mk { d with _strokeTimeout := t }

/-- Builder `action(...)`: installs the callback, modelled by its tag. -/
def HotKey.action : HotKey → Nat → HotKey
  | .mk d, a => .mk { d with _action := a }

/-- Builder `subaction(...)`: appends one child; throws if the hotkey is
marked global. -/
def HotKey.subaction : HotKey → HotKey → Except String HotKey
  | .mk d, sub =>
    if d._global then .error ("Subactions are not supported for global hotkeys")
    else .ok (.mk { d with _subactions := d._subactions ++ [sub] })

/-- Builder `subactions(...)`: replaces the child list; throws if the
hotkey is marked global. -/
def HotKey.subactions : HotKey → List HotKey → Except String HotKey
  | .mk d, subs =>
    if d._global then .error ("Subactions are not supported for global hotkeys")
    else .ok (.mk { d with _subactions := subs })

/-- Builder `subactionsTimeout(...)`. -/
def HotKey.subactionsTimeout : HotKey → JsNum → HotKey
  | .mk d, t => .mk { d with _subactionsTimeout := t }

/-- Builder `backToRoot(...)`. -/
def HotKey.backToRoot : HotKey → Bool → HotKey
  | .mk d, v => .mk { d with _backToRoot := v }

/-- Builder `global(...)`: sets the flag and unconditionally clears the
subaction list (`this._subactions = []`). -/
def HotKey.global : HotKey → Bool → HotKey
  | .mk d, v => .mk { d with _global := v, _subactions := [] }

/-- One recorded observable step: a native `register` call, a native
`unregister` call, or the invocation of an action callback (by its tag). -/
inductive Call : Type where
  | reg (mods : List Mod) (code : KeyCode)
  | unreg (mods : List Mod) (code : KeyCode)
  | act (tag : Nat)

/-- A live `setTimeout` timer: its handle id and the delay argument it was
scheduled with. -/
structure Timer : Type where
  id : Nat
  delay : JsNum

/-- Event types delivered by the native core. -/
inductive EventType : Type where
  | Pressed
  | Released
deriving DecidableEq, Repr

/-- An event delivered by the native core: `{ id, eventType }`. -/
structure Event : Type where
  id : Nat
  eventType : EventType

/-- Lookup in a numeric-keyed JS object (association list). -/
def objGet : List (Nat × HotKey) → Nat → Option HotKey
  | [], _ => none
  | (k, v) :: t, q => if q = k then some v else objGet t q

/-- Assignment `obj[k] = v` in a numeric-keyed JS object, keeping keys in
ascending order to mirror JS integer-key iteration order. -/
def objSet : List (Nat × HotKey) → Nat → HotKey → List (Nat × HotKey)
  | [], k, v => [(k, v)]
  | (k', v') :: t, k, v =>
    if k < k' then (k, v) :: (k', v') :: t
    else if k = k' then (k, v) :: t
    else (k', v') :: objSet t k v

/-- Model of `delete obj[k]` in a numeric-keyed JS object. -/
def objDel (m : List (Nat × HotKey)) (k : Nat) : List (Nat × HotKey) :=
  m.filter (fun p => p.fst != k)

/-- Model of `Object.values(obj)`: the values in ascending key order. -/
def objValues (m : List (Nat × HotKey)) : List HotKey :=
  m.map Prod.snd

/-- The module-level mutable state of `src/index.ts`, together with the
timer bookkeeping and the observable call trace. -/
structure MState : Type where
  globals : List (Nat × HotKey)
  locals : List (Nat × HotKey)
  root : Option (List HotKey)
  timeoutRecoverRoot : Option Nat
  timers : List Timer
  nextTimerId : Nat
  lastHotKey : Option Nat
  lastFire : Int
  calls : List Call

/-- The state right after module initialisation: empty maps, no snapshot,
no timer, `lastHotKey = null`, `lastFire` at the never-fired sentinel. -/
def initState : MState :=
  { globals := [], locals := [], root := none, timeoutRecoverRoot := none,
    timers := [], nextTimerId := 0, lastHotKey := none, lastFire := neverFired,
    calls := [] }

/-- Results of an operation that can throw: on `error` the carried state
is the module state at the moment of the throw (JS mutations made before
a throw persist). -/
abbrev ER := Except (String × MState) MState

namespace manager

/-- Source `manager.unregister(hotKey)`: calls the native core; on an ok result
deletes the reported identity from both scopes. Never throws. -/
def unregister (env : HotkManager) (hotKey : HotKey) (s : MState) : MState :=
  let result := env.unregister hotKey.mods hotKey.code
  let s := { s with calls := s.calls ++ [Call.unreg hotKey.mods hotKey.code] }
  if result.ok then
    { s with locals := objDel s.locals result.id, globals := objDel s.globals result.id }
  else s

/-- Source `manager.register(hotKey, isGlobal)`: throws `"Duplicated hotkey"` if
the hotkey's own id is already present in either scope (before any native
call); otherwise calls the native core, and on an ok result inserts the
hotkey into the chosen scope under the native core's reported identity. -/
def register (env : HotkManager) (hotKey : HotKey) (isGlobal : Bool) (s : MState) : ER :=
  if (objGet s.locals hotKey.id).isSome || (objGet s.globals hotKey.id).isSome then
    .error ("Duplicated hotkey", s)
  else
    let result := env.register hotKey.mods hotKey.code
    let s := { s with calls := s.calls ++ [Call.reg hotKey.mods hotKey.code] }
    .ok (if result.ok then
          (if isGlobal then { s with globals := objSet s.globals result.id hotKey }
           else { s with locals := objSet s.locals result.id hotKey })
         else s)

end manager

/-- Source `clearLocals()`: unregisters every currently-local hotkey, iterating
over a snapshot of `Object.values(locals)`. -/
def clearLocals (env : HotkManager) (s : MState) : MState :=
  (objValues s.locals).foldl (fun s hotKey => manager.unregister env hotKey s) s

/-- The registration loop of `withSnapshot`/`recoverRoot`: registers each
hotkey as local in order; a throw aborts the rest of the loop with the
state reached so far. -/
def registerAll (env : HotkManager) : List HotKey → MState → ER
  | [], s => .ok s
  | hotKey :: rest, s =>
    match manager.register env hotKey false s with
    | .error e => .error e
    | .ok s' => registerAll env rest s'

/-- Model of `clearInterval(handle)` on an optional stored handle: removes the
timer with that id from the live set (no-op for `undefined`). -/
def clearHandle (handle : Option Nat) (s : MState) : MState :=
  match handle with
  | none => s
  | some tid => { s with timers := s.timers.filter (fun t => t.id != tid) }

/-- First statement of `withSnapshot`: `if (timeoutRecoverRoot !== undefined)
clearInterval(timeoutRecoverRoot)`. -/
def cancelCurrentTimer (s : MState) : MState :=
  match s.timeoutRecoverRoot with
  | some tid => clearHandle (some tid) s
  | none => s

/-- Second statement of `withSnapshot`: `if (!root) root =
Object.values(locals)`. -/
def captureRoot (s : MState) : MState :=
  match s.root with
  | none => { s with root := some (objValues s.locals) }
  | some _ => s

/-- Last statement of `withSnapshot`: `if (!isNaN(timeout))
timeoutRecoverRoot = setTimeout(() => manager.recoverRoot(),
Math.min(timeout, 2147483647))`. -/
def scheduleRevert (timeout : JsNum) (s : MState) : MState :=
  if !timeout.isNaN then
    { s with timers := s.timers ++ [⟨s.nextTimerId, jsMin timeout (.fin 2147483647)⟩],
             timeoutRecoverRoot := some s.nextTimerId,
             nextTimerId := s.nextTimerId + 1 }
  else s

/-- Source `withSnapshot(hotKeys, timeout)`: cancels the current revert timer if
one is referenced; captures `Object.values(locals)` as `root` when no
snapshot exists yet; clears the locals; registers the given hotkeys as
locals; finally, when the timeout is not NaN, schedules a fresh revert
timer with delay `Math.min(timeout, 2147483647)` and stores its handle. -/
def withSnapshot (env : HotkManager) (hotKeys : List HotKey) (timeout : JsNum) (s : MState) : ER :=
  match registerAll env hotKeys (clearLocals env (captureRoot (cancelCurrentTimer s))) with
  | .error e => .error e
  | .ok s => .ok (scheduleRevert timeout s)

namespace manager

/-- Source `manager.recoverRoot()`: no-op when no snapshot is pending; otherwise
cancels the referenced revert timer, clears the locals, re-registers every
snapshotted hotkey as local, and resets `root` and `timeoutRecoverRoot`. -/
def recoverRoot (env : HotkManager) (s : MState) : ER :=
  match s.root with
  | none => .ok s
  | some rootHotKeys =>
    match registerAll env rootHotKeys (clearLocals env (clearHandle s.timeoutRecoverRoot s)) with
    | .error e => .error e
    | .ok s => .ok { s with root := none, timeoutRecoverRoot := none }

end manager

/-- Source `fireSubactions()`: with no children, recover the root; otherwise
enter the subaction context with the children and their timeout. -/
def HotKey.fireSubactions (env : HotkManager) (h : HotKey) (s : MState) : ER :=
  if h._subactions.isEmpty then manager.recoverRoot env s
  else withSnapshot env h._subactions h._subactionsTimeout s

/-- Source `fire()`: fires when the stroke mode is Single, or when this hotkey is
the last-pressed one and the elapsed time since `lastFire` is within the
stroke timeout. On a fire: resets `lastFire` to the never-fired sentinel,
runs the action (recorded in the trace), then `fireSubactions`; otherwise
records `now` as `lastFire`. In either case `lastHotKey` is set to this
hotkey afterwards (not reached if `fireSubactions` throws). -/
def HotKey.fire (env : HotkManager) (h : HotKey) (now : Int) (s : MState) : ER :=
  if h._stroke = Stroke.Single ∨
      (s.lastHotKey = some h.ref ∧ jsLeInt (now - s.lastFire) h._strokeTimeout = true) then
    match h.fireSubactions env
        { s with lastFire := neverFired, calls := s.calls ++ [Call.act h._action] } with
    | .error e => .error e
    | .ok s => .ok { s with lastHotKey := some h.ref }
  else
    .ok { s with lastFire := now, lastHotKey := some h.ref }

namespace manager

/-- Source `manager.handleEvent(event)`: looks the event id up in `globals`, then
`locals`; on a Pressed event fires the handler if one was found. -/
def handleEvent (env : HotkManager) (event : Event) (now : Int) (s : MState) : ER :=
  let handler := (objGet s.globals event.id).orElse (fun _ => objGet s.locals event.id)
  if event.eventType = EventType.Pressed then
    match handler with
    | some h => h.fire env now s
    | none => .ok s
  else .ok s

end manager

/-- Expiry of the timer with handle `tid`: if it is still live it is
consumed and its callback `() => manager.recoverRoot()` runs; an already
cancelled timer does nothing. -/
def expireTimer (env : HotkManager) (tid : Nat) (s : MState) : ER :=
  if s.timers.any (fun t => t.id == tid) then
    manager.recoverRoot env { s with timers := s.timers.filter (fun t => t.id != tid) }
  else .ok s

/-- Terminal builder operation `register()` on a hotkey: registers it with
the manager using its own global flag. -/
def HotKey.register (env : HotkManager) (h : HotKey) (s : MState) : ER :=
  manager.register env h h._global s

/-- Terminal builder operation `unregister()` on a hotkey. -/
def HotKey.unregister (env : HotkManager) (h : HotKey) (s : MState) : MState :=
  manager.unregister env h s

end Hotk

namespace Hotk

/-! ## Association-list lemmas for the numeric-keyed object model -/

theorem objGet_objSet_self (m : List (Nat × HotKey)) (k : Nat) (v : HotKey) :
    objGet (objSet m k v) k = some v := by
  induction m with
  | nil => simp [objSet, objGet]
  | cons p t ih =>
    obtain ⟨k', v'⟩ := p
    by_cases h1 : k < k'
    · simp [objSet, h1, objGet]
    · by_cases h2 : k = k'
      · simp [objSet, h1, h2, objGet]
      · have : k ≠ k' := h2
        simp [objSet, h1, h2, objGet, this, ih]

theorem objGet_objSet_ne (m : List (Nat × HotKey)) (k q : Nat) (v : HotKey)
    (h : q ≠ k) : objGet (objSet m k v) q = objGet m q := by
  induction m with
  | nil => simp [objSet, objGet, h]
  | cons p t ih =>
    obtain ⟨k', v'⟩ := p
    by_cases h1 : k < k'
    · simp [objSet, h1, objGet, h]
    · by_cases h2 : k = k'
      · subst h2
        simp [objSet, h1, objGet, h]
      · simp only [objSet, if_neg h1, if_neg h2, objGet]
        by_cases h3 : q = k'
        · simp [h3]
        · simp [h3, ih]

theorem objGet_objDel_self (m : List (Nat × HotKey)) (k : Nat) :
    objGet (objDel m k) k = none := by
  induction m with
  | nil => simp [objDel, objGet]
  | cons p t ih =>
    obtain ⟨k', v'⟩ := p
    by_cases h : k' = k
    · simpa [objDel, h] using ih
    · have hne : k ≠ k' := fun hh => h hh.symm
      simpa [objDel, h, objGet, hne] using ih

theorem objGet_objDel_ne (m : List (Nat × HotKey)) (k q : Nat) (h : q ≠ k) :
    objGet (objDel m k) q = objGet m q := by
  induction m with
  | nil => simp [objDel, objGet]
  | cons p t ih =>
    obtain ⟨k', v'⟩ := p
    by_cases h1 : k' = k
    · subst h1
      simpa [objDel, objGet, h] using ih
    · have hbne : ((k', v').1 != k) = true := by simp [h1]
      simp only [objDel, List.filter_cons, hbne, if_true] at ih ⊢
      by_cases h2 : q = k'
      · simp [objGet, h2]
      · simp only [objGet, if_neg h2]
        simpa [objDel] using ih

theorem mem_objSet (m : List (Nat × HotKey)) (k : Nat) (v : HotKey) (p : Nat × HotKey)
    (h : p ∈ objSet m k v) : p = (k, v) ∨ p ∈ m := by
  induction m with
  | nil => simpa [objSet] using h
  | cons q t ih =>
    obtain ⟨k', v'⟩ := q
    by_cases h1 : k < k'
    · simp [objSet, h1] at h
      rcases h with h | h | h
      · exact Or.inl h
      · exact Or.inr (by simp [h])
      · exact Or.inr (by simp [h])
    · by_cases h2 : k = k'
      · subst h2
        simp [objSet] at h
        rcases h with h | h
        · exact Or.inl h
        · exact Or.inr (List.mem_cons_of_mem _ h)
      · simp [objSet, h1, h2] at h
        rcases h with h | h
        · exact Or.inr (by simp [h])
        · rcases ih h with h' | h'
          · exact Or.inl h'
          · exact Or.inr (by simp [h'])

theorem mem_objDel (m : List (Nat × HotKey)) (k : Nat) (p : Nat × HotKey)
    (h : p ∈ objDel m k) : p ∈ m :=
  List.mem_of_mem_filter h

theorem objDel_of_objGet_none (m : List (Nat × HotKey)) (k : Nat)
    (h : objGet m k = none) : objDel m k = m := by
  induction m with
  | nil => simp [objDel]
  | cons p t ih =>
    obtain ⟨k', v'⟩ := p
    by_cases h1 : k = k'
    · simp [objGet, h1] at h
    · simp [objGet, h1] at h
      have : k' ≠ k := fun hh => h1 hh.symm
      simp [objDel, this] at ih ⊢
      exact ih h

theorem mem_of_objGet_eq_some (m : List (Nat × HotKey)) (q : Nat) (v : HotKey)
    (h : objGet m q = some v) : (q, v) ∈ m := by
  induction m with
  | nil => simp [objGet] at h
  | cons p t ih =>
    obtain ⟨k', v'⟩ := p
    by_cases h1 : q = k'
    · simp [objGet, h1] at h
      simp [h1, h]
    · simp [objGet, h1] at h
      exact List.mem_cons_of_mem _ (ih h)

theorem objGet_none_of_forall (m : List (Nat × HotKey)) (q : Nat)
    (h : ∀ p ∈ m, p.1 ≠ q) : objGet m q = none := by
  induction m with
  | nil => simp [objGet]
  | cons p t ih =>
    obtain ⟨k', v'⟩ := p
    have hk : k' ≠ q := h (k', v') (by simp)
    have hq : q ≠ k' := fun hh => hk hh.symm
    simp [objGet, hq]
    exact ih fun p hp => h p (List.mem_cons_of_mem _ hp)

theorem forall_ne_of_objGet_none (m : List (Nat × HotKey)) (q : Nat)
    (h : objGet m q = none) : ∀ p ∈ m, p.1 ≠ q := by
  induction m with
  | nil => intro p hp; simp at hp
  | cons r t ih =>
    obtain ⟨k', v'⟩ := r
    by_cases h1 : q = k'
    · simp [objGet, h1] at h
    · simp only [objGet, if_neg h1] at h
      intro p hp
      rcases List.mem_cons.mp hp with h2 | h2
      · subst h2
        intro hh
        exact h1 hh.symm
      · exact ih h p h2

theorem mem_objValues (m : List (Nat × HotKey)) (h : HotKey) :
    h ∈ objValues m ↔ ∃ k, (k, h) ∈ m := by
  simp only [objValues, List.mem_map]
  constructor
  · rintro ⟨⟨k, v⟩, hm, rfl⟩
    exact ⟨k, hm⟩
  · rintro ⟨k, hm⟩
    exact ⟨(k, h), hm, rfl⟩

/-! ## Well-formedness and the disjoint-scopes invariant -/

/-- The native core agrees with the locally computed identity: every
register/unregister result reports `getHotkeyId(code, mods)`. -/
def EnvAgrees (env : HotkManager) : Prop :=
  ∀ mods code, (env.register mods code).id = env.getHotkeyId code mods ∧
    (env.unregister mods code).id = env.getHotkeyId code mods

/-- Every native register/unregister call succeeds. -/
def EnvAllOk (env : HotkManager) : Prop :=
  ∀ mods code, (env.register mods code).ok = true ∧ (env.unregister mods code).ok = true

/-- A hotkey whose stored `id` is the one the identity codec computes for
its own modifiers and key code (true of every builder-made hotkey). -/
def TopWF (env : HotkManager) (h : HotKey) : Prop :=
  h.id = env.getHotkeyId h.code h.mods

/-- Hereditarily well-formed hotkey: its own id is the codec's, and so for
every subaction, recursively. -/
inductive HWF (env : HotkManager) : HotKey → Prop where
  | mk : ∀ d : HotKeyData HotKey, d.id = env.getHotkeyId d.code d.mods →
      (∀ c ∈ d._subactions, HWF env c) → HWF env (.mk d)

theorem HWF.topWF {env : HotkManager} {h : HotKey} (hw : HWF env h) : TopWF env h := by
  cases hw with
  | mk d hid _ => exact hid

theorem HWF.subs {env : HotkManager} {h : HotKey} (hw : HWF env h) :
    ∀ c ∈ h._subactions, HWF env c := by
  cases hw with
  | mk d _ hs => exact hs

/-- Disjointness of the two scopes: no identity is a key of both. -/
def DisjScopes (s : MState) : Prop :=
  ∀ k, objGet s.globals k = none ∨ objGet s.locals k = none

/-- Every stored pair's hotkey is hereditarily well-formed. -/
def ScopeWF (env : HotkManager) (m : List (Nat × HotKey)) : Prop :=
  ∀ p ∈ m, HWF env p.2

/-- Well-formedness of all hotkeys reachable from the state: both scopes
and the root snapshot. -/
def StateWF (env : HotkManager) (s : MState) : Prop :=
  ScopeWF env s.globals ∧ ScopeWF env s.locals ∧
    (∀ r, s.root = some r → ∀ h ∈ r, HWF env h)

/-- The combined invariant: disjoint scopes plus reachable well-formedness. -/
def Inv (env : HotkManager) (s : MState) : Prop :=
  DisjScopes s ∧ StateWF env s

/-- The invariant evaluated on an operation's outcome; on a throw it is
required of the state carried by the error. -/
def ERInv (env : HotkManager) : ER → Prop
  | .ok s => Inv env s
  | .error (_, s) => Inv env s

theorem inv_of_fields {env : HotkManager} {s s' : MState}
    (hg : s'.globals = s.globals) (hl : s'.locals = s.locals) (hr : s'.root = s.root)
    (h : Inv env s) : Inv env s' := by
  obtain ⟨hd, hwg, hwl, hwr⟩ := h
  refine ⟨fun k => by rw [hg, hl]; exact hd k, ?_, ?_, ?_⟩
  · rw [hg]; exact hwg
  · rw [hl]; exact hwl
  · rw [hr]; exact hwr

theorem unregister_inv {env : HotkManager} {s : MState} (hk : HotKey)
    (h : Inv env s) : Inv env (manager.unregister env hk s) := by
  obtain ⟨hd, hwg, hwl, hwr⟩ := h
  unfold manager.unregister
  by_cases hok : (env.unregister hk.mods hk.code).ok
  · simp only [hok, if_true]
    refine ⟨?_, ?_, ?_, ?_⟩
    · intro k
      dsimp only
      by_cases hkk : k = (env.unregister hk.mods hk.code).id
      · left; rw [hkk]; exact objGet_objDel_self _ _
      · rw [objGet_objDel_ne _ _ _ hkk, objGet_objDel_ne _ _ _ hkk]
        exact hd k
    · intro p hp; exact hwg p (mem_objDel _ _ _ hp)
    · intro p hp; exact hwl p (mem_objDel _ _ _ hp)
    · exact hwr
  · simp only [hok, if_false]
    exact ⟨hd, hwg, hwl, hwr⟩

theorem register_inv {env : HotkManager} {s : MState} {hk : HotKey} {g : Bool}
    (hEnv : EnvAgrees env) (hwf : HWF env hk)
    (h : Inv env s) : ERInv env (manager.register env hk g s) := by
  obtain ⟨hd, hwg, hwl, hwr⟩ := h
  unfold manager.register
  by_cases hdup : ((objGet s.locals hk.id).isSome || (objGet s.globals hk.id).isSome) = true
  · simp only [hdup, if_true]
    exact ⟨hd, hwg, hwl, hwr⟩
  · simp only [hdup, if_false]
    have hid : (env.register hk.mods hk.code).id = hk.id := by
      rw [(hEnv hk.mods hk.code).1, hwf.topWF]
    have hnl : objGet s.locals hk.id = none := by
      cases hL : objGet s.locals hk.id with
      | none => rfl
      | some v => simp [hL] at hdup
    have hng : objGet s.globals hk.id = none := by
      cases hG : objGet s.globals hk.id with
      | none => rfl
      | some v => simp [hG] at hdup
    by_cases hok : (env.register hk.mods hk.code).ok
    · simp only [hok, if_true]
      cases g with
      | true =>
        simp only [if_true]
        refine ⟨?_, ?_, ?_, ?_⟩
        · intro k
          dsimp only
          by_cases hkk : k = hk.id
          · right; rw [hkk]; exact hnl
          · rw [hid, objGet_objSet_ne _ _ _ _ hkk]
            exact hd k
        · intro p hp
          rcases mem_objSet _ _ _ _ hp with h1 | h1
          · rw [h1]; exact hwf
          · exact hwg p h1
        · exact hwl
        · exact hwr
      | false =>
        simp only [Bool.false_eq_true, if_false]
        refine ⟨?_, ?_, ?_, ?_⟩
        · intro k
          dsimp only
          by_cases hkk : k = hk.id
          · left; rw [hkk]; exact hng
          · rw [hid, objGet_objSet_ne _ _ _ _ hkk]
            exact hd k
        · exact hwg
        · intro p hp
          rcases mem_objSet _ _ _ _ hp with h1 | h1
          · rw [h1]; exact hwf
          · exact hwl p h1
        · exact hwr
    · simp only [hok, if_false]
      exact ⟨hd, hwg, hwl, hwr⟩

theorem foldl_unregister_inv {env : HotkManager} (l : List HotKey) (s : MState)
    (h : Inv env s) :
    Inv env (l.foldl (fun s hotKey => manager.unregister env hotKey s) s) := by
  induction l generalizing s with
  | nil => exact h
  | cons hk t ih => exact ih _ (unregister_inv hk h)

theorem clearLocals_inv {env : HotkManager} {s : MState} (h : Inv env s) :
    Inv env (clearLocals env s) :=
  foldl_unregister_inv _ _ h

theorem registerAll_inv {env : HotkManager} (hEnv : EnvAgrees env) (l : List HotKey)
    (s : MState) (hwf : ∀ c ∈ l, HWF env c) (h : Inv env s) :
    ERInv env (registerAll env l s) := by
  induction l generalizing s with
  | nil => exact h
  | cons hk t ih =>
    unfold registerAll
    have hr := register_inv (g := false) hEnv (hwf hk (by simp)) h
    cases hreg : manager.register env hk false s with
    | error e =>
      obtain ⟨msg, se⟩ := e
      rw [hreg] at hr
      exact hr
    | ok s' =>
      rw [hreg] at hr
      exact ih _ (fun c hc => hwf c (List.mem_cons_of_mem _ hc)) hr

theorem clearHandle_inv {env : HotkManager} {s : MState} (handle : Option Nat)
    (h : Inv env s) : Inv env (clearHandle handle s) := by
  cases handle with
  | none => exact h
  | some tid => exact inv_of_fields rfl rfl rfl h

theorem cancelCurrentTimer_inv {env : HotkManager} {s : MState} (h : Inv env s) :
    Inv env (cancelCurrentTimer s) := by
  unfold cancelCurrentTimer
  cases s.timeoutRecoverRoot with
  | none => exact h
  | some tid => exact clearHandle_inv (some tid) h

theorem captureRoot_inv {env : HotkManager} {s : MState} (h : Inv env s) :
    Inv env (captureRoot s) := by
  unfold captureRoot
  cases hr : s.root with
  | some r => exact h
  | none =>
    obtain ⟨hd, hwg, hwl, hwr⟩ := h
    refine ⟨hd, hwg, hwl, ?_⟩
    intro r hr2 hk hkmem
    dsimp only at hr2
    injection hr2 with hr2
    subst hr2
    rcases (mem_objValues _ _).mp hkmem with ⟨k, hkm⟩
    exact hwl (k, hk) hkm

theorem scheduleRevert_inv {env : HotkManager} {s : MState} (timeout : JsNum)
    (h : Inv env s) : Inv env (scheduleRevert timeout s) := by
  unfold scheduleRevert
  by_cases ht : (!timeout.isNaN) = true
  · simp only [ht, if_true]
    exact inv_of_fields rfl rfl rfl h
  · simp only [ht, if_false]
    exact h

theorem withSnapshot_inv {env : HotkManager} (hEnv : EnvAgrees env)
    (l : List HotKey) (timeout : JsNum) (s : MState)
    (hwf : ∀ c ∈ l, HWF env c) (h : Inv env s) :
    ERInv env (withSnapshot env l timeout s) := by
  unfold withSnapshot
  have h3 : Inv env (clearLocals env (captureRoot (cancelCurrentTimer s))) :=
    clearLocals_inv (captureRoot_inv (cancelCurrentTimer_inv h))
  have h4 := registerAll_inv hEnv l _ hwf h3
  cases hra : registerAll env l (clearLocals env (captureRoot (cancelCurrentTimer s))) with
  | error e =>
    obtain ⟨msg, se⟩ := e
    rw [hra] at h4
    exact h4
  | ok s3 =>
    rw [hra] at h4
    exact scheduleRevert_inv timeout h4

theorem recoverRoot_inv {env : HotkManager} (hEnv : EnvAgrees env) (s : MState)
    (h : Inv env s) : ERInv env (manager.recoverRoot env s) := by
  unfold manager.recoverRoot
  cases hr : s.root with
  | none => exact h
  | some r =>
    show ERInv env
      (match registerAll env r (clearLocals env (clearHandle s.timeoutRecoverRoot s)) with
        | .error e => .error e
        | .ok s => .ok { s with root := none, timeoutRecoverRoot := none })
    have hwfr : ∀ c ∈ r, HWF env c := h.2.2.2 r hr
    have h1 : Inv env (clearHandle s.timeoutRecoverRoot s) := clearHandle_inv _ h
    have h2 : Inv env (clearLocals env (clearHandle s.timeoutRecoverRoot s)) :=
      clearLocals_inv h1
    have h3 := registerAll_inv hEnv r _ hwfr h2
    cases hra : registerAll env r (clearLocals env (clearHandle s.timeoutRecoverRoot s)) with
    | error e =>
      obtain ⟨msg, se⟩ := e
      rw [hra] at h3
      exact h3
    | ok s3 =>
      rw [hra] at h3
      obtain ⟨hd, hwg, hwl, hwr⟩ := h3
      exact ⟨hd, hwg, hwl, by intro r2 hr2; dsimp only at hr2; exact absurd hr2 (by simp)⟩

theorem fireSubactions_inv {env : HotkManager} (hEnv : EnvAgrees env)
    {hk : HotKey} (hwf : HWF env hk) (s : MState) (h : Inv env s) :
    ERInv env (hk.fireSubactions env s) := by
  unfold HotKey.fireSubactions
  by_cases he : hk._subactions.isEmpty = true
  · simp only [he, if_true]
    exact recoverRoot_inv hEnv s h
  · simp only [he, if_false]
    exact withSnapshot_inv hEnv _ _ s hwf.subs h

theorem fire_inv {env : HotkManager} (hEnv : EnvAgrees env)
    {hk : HotKey} (hwf : HWF env hk) (now : Int) (s : MState) (h : Inv env s) :
    ERInv env (hk.fire env now s) := by
  unfold HotKey.fire
  by_cases hg : hk._stroke = Stroke.Single ∨
      (s.lastHotKey = some hk.ref ∧ jsLeInt (now - s.lastFire) hk._strokeTimeout = true)
  · simp only [hg, if_true]
    have h1 : Inv env { s with lastFire := neverFired, calls := s.calls ++ [Call.act hk._action] } := inv_of_fields rfl rfl rfl h
    have h2 := fireSubactions_inv hEnv hwf _ h1
    cases hfs : HotKey.fireSubactions env hk { s with lastFire := neverFired, calls := s.calls ++ [Call.act hk._action] } with
    | error e =>
      obtain ⟨msg, se⟩ := e
      rw [hfs] at h2
      exact h2
    | ok s3 =>
      rw [hfs] at h2
      exact inv_of_fields rfl rfl rfl h2
  · simp only [hg, if_false]
    exact inv_of_fields rfl rfl rfl h

theorem handleEvent_inv {env : HotkManager} (hEnv : EnvAgrees env)
    (event : Event) (now : Int) (s : MState) (h : Inv env s) :
    ERInv env (manager.handleEvent env event now s) := by
  unfold manager.handleEvent
  by_cases he : event.eventType = EventType.Pressed
  · simp only [he, if_true]
    cases hh : (objGet s.globals event.id).orElse (fun _ => objGet s.locals event.id) with
    | none => exact h
    | some hk =>
      have hwf : HWF env hk := by
        rcases Option.orElse_eq_some' _ _ _ |>.mp hh with h1 | ⟨h1, h2⟩
        · exact h.2.1 _ (mem_of_objGet_eq_some _ _ _ h1)
        · exact h.2.2.1 _ (mem_of_objGet_eq_some _ _ _ h2)
      exact fire_inv hEnv hwf now s h
  · simp only [he, if_false]
    exact h

/-! ## Concrete fixtures used by counterexamples and witnesses -/

/-- A well-behaved native core: every call succeeds and the reported
identity is the key code (matching `getHotkeyId code mods = code`). -/
def envOkId : HotkManager :=
  ⟨fun _ code => ⟨code, true⟩, fun _ code => ⟨code, true⟩, fun code _ => code⟩

theorem envOkId_agrees : EnvAgrees envOkId := fun _ _ => ⟨rfl, rfl⟩

theorem envOkId_allOk : EnvAllOk envOkId := fun _ _ => ⟨rfl, rfl⟩

/-- A misbehaving native core whose register/unregister results always
report identity `5`, regardless of the combination. -/
def envBad : HotkManager :=
  ⟨fun _ _ => ⟨5, true⟩, fun _ _ => ⟨5, true⟩, fun code _ => code⟩

def hkA : HotKey := hotKey envOkId 1 [] 10
def hkB : HotKey := hotKey envOkId 2 [] 20
def hkP : HotKey := hotKey envBad 3 [] 5
def hkQ : HotKey := hotKey envBad 4 [] 7

/-! ## Claim C3 -/

/-- Claim C3 as stated is false: with a native core whose reported
identity (5) differs from the locally computed one, two successful
`manager.register` calls starting from the initial state leave identity 5
present in both scopes at once, so the scopes are not disjoint. -/
theorem claim_C3_counterexample :
    ∃ s1 s2, manager.register envBad hkP true initState = .ok s1 ∧
      manager.register envBad hkQ false s1 = .ok s2 ∧
      (objGet s2.globals 5).isSome = true ∧ (objGet s2.locals 5).isSome = true ∧
      ¬ DisjScopes s2 := by
  refine ⟨_, _, rfl, rfl, rfl, rfl, fun hd => ?_⟩
  rcases hd 5 with h | h
  · exact Option.noConfusion (show (some hkP : Option HotKey) = none from h)
  · exact Option.noConfusion (show (some hkQ : Option HotKey) = none from h)

/-- Claim C3, amended: provided the native core's reported identities
agree with the locally computed ones (`EnvAgrees`) and every registered
hotkey stores its codec identity (`HWF`), the globals/locals key sets are
disjoint initially and stay disjoint across every manager operation —
`register`, `unregister`, `handleEvent`, `recoverRoot` and entering a
subaction context (`withSnapshot`) — including the states carried by
thrown errors. -/
theorem claim_C3_disjoint_preserved (env : HotkManager) (hEnv : EnvAgrees env) :
    Inv env initState ∧
    (∀ hk g s, HWF env hk → Inv env s → ERInv env (manager.register env hk g s)) ∧
    (∀ hk s, Inv env s → Inv env (manager.unregister env hk s)) ∧
    (∀ event now s, Inv env s → ERInv env (manager.handleEvent env event now s)) ∧
    (∀ s, Inv env s → ERInv env (manager.recoverRoot env s)) ∧
    (∀ children timeout s, (∀ c ∈ children, HWF env c) → Inv env s →
        ERInv env (withSnapshot env children timeout s)) := by
  refine ⟨?_, ?_, ?_, ?_, ?_, ?_⟩
  · refine ⟨fun k => Or.inl rfl, ?_, ?_, ?_⟩
    · intro p hp
      exact absurd hp (List.not_mem_nil p)
    · intro p hp
      exact absurd hp (List.not_mem_nil p)
    · intro r hr
      exact Option.noConfusion hr
  · intro hk g s hwf h
    exact register_inv hEnv hwf h
  · intro hk s h
    exact unregister_inv hk h
  · intro event now s h
    exact handleEvent_inv hEnv event now s h
  · intro s h
    exact recoverRoot_inv hEnv s h
  · intro children timeout s hwf h
    exact withSnapshot_inv hEnv children timeout s hwf h

/-- Witness for the amended claim C3 at a concrete input: the well-behaved
core `envOkId`, the builder hotkey `hkA`, and a concrete register call
from the initial state. -/
theorem claim_C3_witness :
    EnvAgrees envOkId ∧ Inv envOkId initState ∧
      ERInv envOkId (manager.register envOkId hkA true initState) := by
  have hEnv : EnvAgrees envOkId := envOkId_agrees
  have hwf : HWF envOkId hkA :=
    HWF.mk _ rfl (fun c hc => absurd hc (List.not_mem_nil c))
  have hInv : Inv envOkId initState := (claim_C3_disjoint_preserved envOkId hEnv).1
  exact ⟨hEnv, hInv,
    (claim_C3_disjoint_preserved envOkId hEnv).2.1 hkA true initState hwf hInv⟩

/-! ## Claim C10 -/

/-- Claim C10: `global(v)` clears the entire subaction list for every
boolean `v` (also `v = false`) while setting the flag to `v`; hence a
chain `subaction(c).global(false)` yields a definition with no children
that is nevertheless non-global. -/
theorem claim_C10_global_clears_subactions (hk c : HotKey) (v : Bool) :
    (hk.global v)._subactions = [] ∧ (hk.global v)._global = v ∧
    (hk._global = false →
      ∃ h, hk.subaction c = .ok h ∧ (h.global false)._subactions = [] ∧
        (h.global false)._global = false) := by
  obtain ⟨d⟩ := hk
  refine ⟨rfl, rfl, fun hg => ?_⟩
  have hgd : d._global = false := hg
  refine ⟨.mk { d with _subactions := d._subactions ++ [c] }, ?_, rfl, rfl⟩
  simp [HotKey.subaction, hgd]

/-- Witness for claim C10 at concrete input: `hkA.subaction hkB` followed
by `global(false)` has no children and is non-global. -/
theorem claim_C10_witness :
    (hkA.global false)._subactions = [] ∧
    ∃ h, hkA.subaction hkB = .ok h ∧ (h.global false)._subactions = [] ∧
      (h.global false)._global = false :=
  ⟨(claim_C10_global_clears_subactions hkA hkB false).1,
   (claim_C10_global_clears_subactions hkA hkB false).2.2 rfl⟩

/-! ## Claim C8 -/

/-- Claim C8: when the duplicate check passes but the native core's
register call reports not-ok, `manager.register` raises no error and adds
the hotkey to neither scope; only the native call is recorded. -/
theorem claim_C8_best_effort (env : HotkManager) (hk : HotKey) (g : Bool) (s : MState)
    (habsL : objGet s.locals hk.id = none) (habsG : objGet s.globals hk.id = none)
    (hno : (env.register hk.mods hk.code).ok = false) :
    manager.register env hk g s =
      .ok { s with calls := s.calls ++ [Call.reg hk.mods hk.code] } := by
  simp [manager.register, habsL, habsG, hno]

/-- A native core that rejects every register call. -/
def envNoReg : HotkManager :=
  ⟨fun _ _ => ⟨0, false⟩, fun _ code => ⟨code, true⟩, fun code _ => code⟩

/-- Witness for claim C8 at concrete input: registering `hkA` against the
rejecting core from the initial state. -/
theorem claim_C8_witness :
    manager.register envNoReg hkA true initState =
      .ok { initState with calls := [Call.reg hkA.mods hkA.code] } :=
  claim_C8_best_effort envNoReg hkA true initState rfl rfl rfl

/-! ## Claim C5 -/

/-- Claim C5: after a successful registration of `D1`, registering any
`D2` with the same identity throws `"Duplicated hotkey"` synchronously,
carrying the state unchanged — in particular no native call was made (the
trace still ends at `D1`'s call) and `D1`'s registration is intact. -/
theorem claim_C5_duplicate_error (env : HotkManager) (D1 D2 : HotKey) (g1 g2 : Bool)
    (s0 : MState)
    (habsL : objGet s0.locals D1.id = none) (habsG : objGet s0.globals D1.id = none)
    (hok : env.register D1.mods D1.code = ⟨D1.id, true⟩)
    (hid : D2.id = D1.id) :
    ∃ s1, manager.register env D1 g1 s0 = .ok s1 ∧
      manager.register env D2 g2 s1 = .error ("Duplicated hotkey", s1) ∧
      objGet (if g1 then s1.globals else s1.locals) D1.id = some D1 ∧
      s1.calls = s0.calls ++ [Call.reg D1.mods D1.code] := by
  cases g1 with
  | true =>
    refine ⟨{ s0 with globals := objSet s0.globals D1.id D1, calls := s0.calls ++ [Call.reg D1.mods D1.code] }, ?_, ?_, ?_, rfl⟩
    · simp [manager.register, habsL, habsG, hok]
    · simp [manager.register, hid, habsL, objGet_objSet_self]
    · simp [objGet_objSet_self]
  | false =>
    refine ⟨{ s0 with locals := objSet s0.locals D1.id D1, calls := s0.calls ++ [Call.reg D1.mods D1.code] }, ?_, ?_, ?_, rfl⟩
    · simp [manager.register, habsL, habsG, hok]
    · simp [manager.register, hid, objGet_objSet_self]
    · simp [objGet_objSet_self]

/-- Witness for claim C5 at concrete input: `hkA` and a second hotkey with
the same modifiers and key code (hence the same identity) against the
well-behaved core. -/
theorem claim_C5_witness :
    ∃ s1, manager.register envOkId hkA false initState = .ok s1 ∧
      manager.register envOkId (hotKey envOkId 9 [] 10) true s1 =
        .error ("Duplicated hotkey", s1) ∧
      objGet (if false then s1.globals else s1.locals) hkA.id = some hkA ∧
      s1.calls = initState.calls ++ [Call.reg hkA.mods hkA.code] :=
  claim_C5_duplicate_error envOkId hkA (hotKey envOkId 9 [] 10) false true initState
    rfl rfl rfl rfl

/-! ## Claim C2 -/

/-- Claim C2: for a Double-stroke definition with timeout `T`: a press
with no matching pending stroke (in particular an isolated press) does not
fire and records itself as the pending stroke; a press while this
definition is pending with elapsed time within `T` (boundary included)
fires the action exactly once and resets the timestamp to the never-fired
sentinel. -/
theorem claim_C2_double_stroke (env : HotkManager) (D : HotKey) (T now : Int) (s : MState)
    (hD : D._stroke = Stroke.Double) (hT : D._strokeTimeout = JsNum.fin T)
    (hsub : D._subactions = []) (hroot : s.root = none) :
    (s.lastHotKey = none →
      D.fire env now s = .ok { s with lastFire := now, lastHotKey := some D.ref }) ∧
    (¬ (s.lastHotKey = some D.ref ∧ now - s.lastFire ≤ T) →
      D.fire env now s = .ok { s with lastFire := now, lastHotKey := some D.ref }) ∧
    (s.lastHotKey = some D.ref → now - s.lastFire ≤ T →
      D.fire env now s = .ok { s with lastFire := neverFired, calls := s.calls ++ [Call.act D._action], lastHotKey := some D.ref }) := by
  have hgiff : (D._stroke = Stroke.Single ∨
      (s.lastHotKey = some D.ref ∧ jsLeInt (now - s.lastFire) D._strokeTimeout = true)) ↔
      (s.lastHotKey = some D.ref ∧ now - s.lastFire ≤ T) := by
    rw [hD, hT]
    simp [jsLeInt]
  have hnofire : ¬ (s.lastHotKey = some D.ref ∧ now - s.lastFire ≤ T) →
      D.fire env now s = .ok { s with lastFire := now, lastHotKey := some D.ref } := by
    intro hno
    unfold HotKey.fire
    rw [if_neg (fun hg => hno (hgiff.mp hg))]
  refine ⟨?_, hnofire, ?_⟩
  · intro hn
    refine hnofire ?_
    rintro ⟨hp, _⟩
    rw [hn] at hp
    exact Option.noConfusion hp
  · intro hp hle
    unfold HotKey.fire
    rw [if_pos (hgiff.mpr ⟨hp, hle⟩)]
    have hfs : D.fireSubactions env { s with lastFire := neverFired, calls := s.calls ++ [Call.act D._action] } = .ok { s with lastFire := neverFired, calls := s.calls ++ [Call.act D._action] } := by
      unfold HotKey.fireSubactions
      rw [hsub]
      simp only [List.isEmpty_nil, if_true]
      unfold manager.recoverRoot
      have : MState.root { s with lastFire := neverFired, calls := s.calls ++ [Call.act D._action] } = none := hroot
      rw [this]
    rw [hfs]

/-- A Double-stroke hotkey with a 300 ms stroke timeout. -/
def hkW : HotKey := ((hotKey envOkId 5 [] 50).stroke Stroke.Double).strokeTimeout (.fin 300)

/-- The state after a first (non-firing) press of `hkW` at time 1000. -/
def sPending : MState := { initState with lastFire := 1000, lastHotKey := some 5 }

/-- Witness for claim C2 at concrete input: the second press of `hkW`
exactly at the 300 ms boundary fires once and resets the timestamp. -/
theorem claim_C2_witness :
    HotKey.fire envOkId hkW 1300 sPending =
      .ok { sPending with lastFire := neverFired, calls := [Call.act hkW._action], lastHotKey := some hkW.ref } :=
  (claim_C2_double_stroke envOkId hkW 300 1300 sPending rfl rfl rfl rfl).2.2 rfl (by decide)

/-! ## Claim C4 -/

/-- Claim C4 as stated is false: a Single-stroke press does fire
unconditionally, but afterwards `lastFire` holds the never-fired sentinel,
not the current time (`now = 100` here). -/
theorem claim_C4_counterexample :
    (HotKey.fire envOkId hkA 100 initState).map (fun s => s.lastFire) = .ok neverFired ∧
      (neverFired : Int) ≠ 100 :=
  ⟨rfl, by decide⟩

/-- Claim C4, amended: a press routed to a Single-stroke definition always
fires its action immediately (for every current time and every pending
double-stroke state), records it as `lastHotKey`, and resets `lastFire` to
the never-fired sentinel (not to the current time). -/
theorem claim_C4_single_fires (env : HotkManager) (D : HotKey) (now : Int) (s : MState)
    (hD : D._stroke = Stroke.Single) (hsub : D._subactions = []) (hroot : s.root = none) :
    D.fire env now s = .ok { s with lastFire := neverFired, calls := s.calls ++ [Call.act D._action], lastHotKey := some D.ref } := by
  unfold HotKey.fire
  rw [if_pos (Or.inl hD)]
  have hfs : D.fireSubactions env { s with lastFire := neverFired, calls := s.calls ++ [Call.act D._action] } = .ok { s with lastFire := neverFired, calls := s.calls ++ [Call.act D._action] } := by
    unfold HotKey.fireSubactions
    rw [hsub]
    simp only [List.isEmpty_nil, if_true]
    unfold manager.recoverRoot
    have : MState.root { s with lastFire := neverFired, calls := s.calls ++ [Call.act D._action] } = none := hroot
    rw [this]
  rw [hfs]

/-- Witness for the amended claim C4 at concrete input. -/
theorem claim_C4_witness :
    HotKey.fire envOkId hkA 100 initState =
      .ok { initState with lastFire := neverFired, calls := [Call.act hkA._action], lastHotKey := some hkA.ref } :=
  claim_C4_single_fires envOkId hkA 100 initState rfl rfl rfl

/-! ## Claim C1 -/

/-- A hotkey with no children configured with `backToRoot(false)`. -/
def hkD : HotKey := (hotKey envOkId 3 [] 30).backToRoot false

/-- A state inside a descended subaction context: locals `{hkB, hkD}`,
root snapshot `[hkA]`, one live revert timer. -/
def sDescended : MState :=
  { globals := [], locals := [(20, hkB), (30, hkD)], root := some [hkA],
    timeoutRecoverRoot := some 0, timers := [{ id := 0, delay := JsNum.fin 1000 }],
    nextTimerId := 1, lastHotKey := none, lastFire := neverFired, calls := [] }

/-- Claim C1 names a code bug: `fireSubactions` never consults
`_backToRoot`. Evaluating the code at the failing input — firing the
no-children definition `hkD`, built with `backToRoot(false)`, inside a
descended context — performs root recovery anyway: the snapshot is
consumed, the locals are replaced by the snapshotted `hkA` (key 10), and
the timer reference is cleared, exactly what `recoverRoot()` does. -/
theorem claim_C1_code_bug_eval :
    hkD._backToRoot = false ∧ hkD._subactions = [] ∧ sDescended.root = some [hkA] ∧
    (HotKey.fire envOkId hkD 100 sDescended).map
        (fun s => (s.root.isNone, s.locals.map Prod.fst, s.timeoutRecoverRoot.isNone)) =
      .ok (true, [10], true) :=
  ⟨rfl, rfl, rfl, rfl⟩

/-! ## Exact behaviour of clearing and registering under a well-behaved core -/

theorem mem_objDel_ne (m : List (Nat × HotKey)) (k : Nat) (p : Nat × HotKey)
    (h : p ∈ objDel m k) : p.1 ≠ k := by
  have := List.of_mem_filter h
  simpa using this

theorem foldl_objDel_mem_empty (f : HotKey → Nat) (l : List HotKey)
    (m : List (Nat × HotKey)) (h : ∀ p ∈ m, ∃ hkey ∈ l, p.1 = f hkey) :
    l.foldl (fun acc hkey => objDel acc (f hkey)) m = [] := by
  induction l generalizing m with
  | nil =>
    cases m with
    | nil => rfl
    | cons p t =>
      rcases h p (by simp) with ⟨hkey, hmem, _⟩
      exact absurd hmem (List.not_mem_nil hkey)
  | cons hk t ih =>
    simp only [List.foldl_cons]
    refine ih _ ?_
    intro p hp
    rcases h p (mem_objDel _ _ _ hp) with ⟨hk2, hmem2, heq⟩
    rcases List.mem_cons.mp hmem2 with h2 | h2
    · exfalso
      subst h2
      exact mem_objDel_ne _ _ _ hp heq
    · exact ⟨hk2, h2, heq⟩

theorem foldl_objDel_absent (f : HotKey → Nat) (l : List HotKey)
    (g : List (Nat × HotKey)) (h : ∀ hkey ∈ l, objGet g (f hkey) = none) :
    l.foldl (fun acc hkey => objDel acc (f hkey)) g = g := by
  induction l generalizing g with
  | nil => rfl
  | cons hk t ih =>
    simp only [List.foldl_cons]
    rw [objDel_of_objGet_none _ _ (h hk (by simp))]
    exact ih _ (fun hk2 h2 => h hk2 (List.mem_cons_of_mem _ h2))

theorem unregister_spec {env : HotkManager} (hok : EnvAllOk env) (hagree : EnvAgrees env)
    (hk : HotKey) (s : MState) :
    manager.unregister env hk s =
      { s with locals := objDel s.locals (env.getHotkeyId hk.code hk.mods),
               globals := objDel s.globals (env.getHotkeyId hk.code hk.mods),
               calls := s.calls ++ [Call.unreg hk.mods hk.code] } := by
  unfold manager.unregister
  simp only [(hok hk.mods hk.code).2, if_true, (hagree hk.mods hk.code).2]

theorem foldl_unregister_spec {env : HotkManager} (hok : EnvAllOk env)
    (hagree : EnvAgrees env) (l : List HotKey) (s : MState) :
    l.foldl (fun s h => manager.unregister env h s) s =
      { s with locals := l.foldl (fun m h => objDel m (env.getHotkeyId h.code h.mods)) s.locals,
               globals := l.foldl (fun m h => objDel m (env.getHotkeyId h.code h.mods)) s.globals,
               calls := s.calls ++ l.map (fun h => Call.unreg h.mods h.code) } := by
  induction l generalizing s with
  | nil => simp
  | cons hk t ih =>
    simp only [List.foldl_cons]
    rw [unregister_spec hok hagree]
    rw [ih]
    simp

theorem clearLocals_spec {env : HotkManager} (hok : EnvAllOk env) (hagree : EnvAgrees env)
    (s : MState)
    (hkeyed : ∀ p ∈ s.locals, p.1 = env.getHotkeyId p.2.code p.2.mods)
    (hdisj : ∀ p ∈ s.locals, objGet s.globals p.1 = none) :
    clearLocals env s =
      { s with locals := [],
               calls := s.calls ++ (objValues s.locals).map (fun h => Call.unreg h.mods h.code) } := by
  unfold clearLocals
  rw [foldl_unregister_spec hok hagree]
  have hmem : ∀ p ∈ s.locals, ∃ hkey ∈ objValues s.locals,
      p.1 = env.getHotkeyId hkey.code hkey.mods := by
    intro p hp
    exact ⟨p.2, (mem_objValues _ _).mpr ⟨p.1, by simpa using hp⟩, hkeyed p hp⟩
  have habs : ∀ hkey ∈ objValues s.locals, objGet s.globals (env.getHotkeyId hkey.code hkey.mods) = none := by
    intro hkey hmem2
    rcases (mem_objValues _ _).mp hmem2 with ⟨k, hkm⟩
    have h1 : k = env.getHotkeyId hkey.code hkey.mods := hkeyed (k, hkey) hkm
    rw [← h1]
    exact hdisj (k, hkey) hkm
  rw [foldl_objDel_mem_empty (fun h => env.getHotkeyId h.code h.mods)
        (objValues s.locals) s.locals hmem,
      foldl_objDel_absent (fun h => env.getHotkeyId h.code h.mods)
        (objValues s.locals) s.globals habs]

theorem registerAll_spec {env : HotkManager} (hok : EnvAllOk env) (hagree : EnvAgrees env)
    (l : List HotKey) (s : MState)
    (hwf : ∀ c ∈ l, TopWF env c)
    (hnodupl : (l.map HotKey.id).Nodup)
    (habsL : ∀ c ∈ l, objGet s.locals c.id = none)
    (habsG : ∀ c ∈ l, objGet s.globals c.id = none) :
    ∃ s', registerAll env l s = .ok s' ∧
      s'.globals = s.globals ∧
      (∀ k, (∀ c ∈ l, k ≠ c.id) → objGet s'.locals k = objGet s.locals k) ∧
      (∀ c ∈ l, objGet s'.locals c.id = some c) ∧
      (∀ p ∈ s'.locals, p ∈ s.locals ∨ p.2 ∈ l) ∧
      s'.calls = s.calls ++ l.map (fun h => Call.reg h.mods h.code) ∧
      s'.root = s.root ∧ s'.timeoutRecoverRoot = s.timeoutRecoverRoot ∧
      s'.timers = s.timers ∧ s'.nextTimerId = s.nextTimerId ∧
      s'.lastHotKey = s.lastHotKey ∧ s'.lastFire = s.lastFire := by
  induction l generalizing s with
  | nil =>
    exact ⟨s, rfl, rfl, fun k _ => rfl, by simp, fun p hp => Or.inl hp, by simp,
      rfl, rfl, rfl, rfl, rfl, rfl⟩
  | cons c t ih =>
    have hid : (env.register c.mods c.code).id = c.id := by
      rw [(hagree c.mods c.code).1, ← hwf c (by simp)]
    have hstep : manager.register env c false s = .ok { s with locals := objSet s.locals c.id c, calls := s.calls ++ [Call.reg c.mods c.code] } := by
      unfold manager.register
      rw [habsL c (by simp), habsG c (by simp)]
      simp [(hok c.mods c.code).1, hid]
    have h0 : (∀ x ∈ t, ¬ x.id = c.id) ∧ (t.map HotKey.id).Nodup := by
      simpa using hnodupl
    have hne : ∀ c2 ∈ t, c2.id ≠ c.id := fun c2 hc2 => h0.1 c2 hc2
    have hnodt : (t.map HotKey.id).Nodup := h0.2
    obtain ⟨s', hra, hg, hpres, hget, hmem, hcalls, hroot, href, htimers, hnid, hlhk, hlf⟩ :=
      ih { s with locals := objSet s.locals c.id c, calls := s.calls ++ [Call.reg c.mods c.code] }
        (fun c2 hc2 => hwf c2 (List.mem_cons_of_mem _ hc2))
        hnodt
        (fun c2 hc2 => by
          dsimp only
          rw [objGet_objSet_ne _ _ _ _ (hne c2 hc2)]
          exact habsL c2 (List.mem_cons_of_mem _ hc2))
        (fun c2 hc2 => habsG c2 (List.mem_cons_of_mem _ hc2))
    refine ⟨s', ?_, ?_, ?_, ?_, ?_, ?_, ?_, ?_, ?_, ?_, ?_, ?_⟩
    · unfold registerAll
      rw [hstep]
      exact hra
    · exact hg
    · intro k hk
      rw [hpres k (fun c2 hc2 => hk c2 (List.mem_cons_of_mem _ hc2))]
      dsimp only
      exact objGet_objSet_ne _ _ _ _ (hk c (by simp))
    · intro c2 hc2
      rcases List.mem_cons.mp hc2 with h2 | h2
      · subst h2
        rw [hpres c2.id (fun c3 hc3 hcontra => hne c3 hc3 hcontra.symm)]
        dsimp only
        exact objGet_objSet_self _ _ _
      · exact hget c2 h2
    · intro p hp
      rcases hmem p hp with h2 | h2
      · rcases mem_objSet _ _ _ _ (by simpa using h2) with h3 | h3
        · right
          rw [h3]
          simp
        · exact Or.inl h3
      · exact Or.inr (List.mem_cons_of_mem _ h2)
    · rw [hcalls]
      simp
    · exact hroot
    · exact href
    · exact htimers
    · exact hnid
    · exact hlhk
    · exact hlf

theorem cancelCurrentTimer_fields (s : MState) :
    (cancelCurrentTimer s).globals = s.globals ∧ (cancelCurrentTimer s).locals = s.locals ∧
    (cancelCurrentTimer s).root = s.root ∧ (cancelCurrentTimer s).calls = s.calls ∧
    (cancelCurrentTimer s).timeoutRecoverRoot = s.timeoutRecoverRoot ∧
    (cancelCurrentTimer s).nextTimerId = s.nextTimerId ∧
    (cancelCurrentTimer s).lastHotKey = s.lastHotKey ∧
    (cancelCurrentTimer s).lastFire = s.lastFire := by
  cases href : s.timeoutRecoverRoot with
  | none => simp [cancelCurrentTimer, clearHandle, href]
  | some tid => simp [cancelCurrentTimer, clearHandle, href]

theorem captureRoot_fields (s : MState) :
    (captureRoot s).globals = s.globals ∧ (captureRoot s).locals = s.locals ∧
    (captureRoot s).calls = s.calls ∧
    (captureRoot s).timeoutRecoverRoot = s.timeoutRecoverRoot ∧
    (captureRoot s).timers = s.timers ∧ (captureRoot s).nextTimerId = s.nextTimerId ∧
    (captureRoot s).lastHotKey = s.lastHotKey ∧ (captureRoot s).lastFire = s.lastFire ∧
    (s.root = none → (captureRoot s).root = some (objValues s.locals)) ∧
    (∀ r, s.root = some r → (captureRoot s).root = some r) := by
  cases hr : s.root with
  | none => simp [captureRoot, hr]
  | some r0 => simp [captureRoot, hr]

theorem scheduleRevert_fields (timeout : JsNum) (s : MState) :
    (scheduleRevert timeout s).globals = s.globals ∧
    (scheduleRevert timeout s).locals = s.locals ∧
    (scheduleRevert timeout s).root = s.root ∧
    (scheduleRevert timeout s).calls = s.calls ∧
    (scheduleRevert timeout s).lastHotKey = s.lastHotKey ∧
    (scheduleRevert timeout s).lastFire = s.lastFire := by
  unfold scheduleRevert
  by_cases h : (!timeout.isNaN) = true
  · rw [if_pos h]
    exact ⟨rfl, rfl, rfl, rfl, rfl, rfl⟩
  · rw [if_neg h]
    exact ⟨rfl, rfl, rfl, rfl, rfl, rfl⟩

/-! ## Claim C6 -/

/-- Claim C6: entering a subaction context replaces the locals
wholesale — it unregisters every previous local (visible in the native
call trace), makes exactly the given children the new locals (registered
as non-global), captures the pre-descent locals as the root snapshot only
when no snapshot exists yet, and leaves the globals untouched. Stated
under a well-behaved native core, locals keyed by their own identities,
disjointness from globals, and children with distinct fresh identities. -/
theorem claim_C6_enter_subaction_context (env : HotkManager) (children : List HotKey)
    (timeout : JsNum) (s : MState)
    (hok : EnvAllOk env) (hagree : EnvAgrees env)
    (hkeyed : ∀ p ∈ s.locals, p.1 = p.2.id)
    (hwfL : ∀ p ∈ s.locals, TopWF env p.2)
    (hdisj : ∀ p ∈ s.locals, objGet s.globals p.1 = none)
    (hwfC : ∀ c ∈ children, TopWF env c)
    (hnodup : (children.map HotKey.id).Nodup)
    (hfresh : ∀ c ∈ children, objGet s.globals c.id = none) :
    ∃ s', withSnapshot env children timeout s = .ok s' ∧
      s'.globals = s.globals ∧
      (∀ c ∈ children, objGet s'.locals c.id = some c) ∧
      (∀ p ∈ s'.locals, p.2 ∈ children) ∧
      (s.root = none → s'.root = some (objValues s.locals)) ∧
      (∀ r, s.root = some r → s'.root = some r) ∧
      s'.calls = s.calls ++ (objValues s.locals).map (fun h => Call.unreg h.mods h.code)
                         ++ children.map (fun h => Call.reg h.mods h.code) := by
  obtain ⟨c1g, c1l, c1r, c1c, c1ref, c1nid, c1lh, c1lf⟩ := cancelCurrentTimer_fields s
  obtain ⟨c2g, c2l, c2c, c2ref, c2t, c2nid, c2lh, c2lf, c2rn, c2rs⟩ :=
    captureRoot_fields (cancelCurrentTimer s)
  have hs2l : (captureRoot (cancelCurrentTimer s)).locals = s.locals := by rw [c2l, c1l]
  have hs2g : (captureRoot (cancelCurrentTimer s)).globals = s.globals := by rw [c2g, c1g]
  have hs2c : (captureRoot (cancelCurrentTimer s)).calls = s.calls := by rw [c2c, c1c]
  have hcl : clearLocals env (captureRoot (cancelCurrentTimer s)) = { captureRoot (cancelCurrentTimer s) with locals := [], calls := (captureRoot (cancelCurrentTimer s)).calls ++ (objValues (captureRoot (cancelCurrentTimer s)).locals).map (fun h => Call.unreg h.mods h.code) } := by
    apply clearLocals_spec hok hagree
    · intro p hp
      rw [hs2l] at hp
      rw [hkeyed p hp]
      exact hwfL p hp
    · intro p hp
      rw [hs2l] at hp
      rw [hs2g]
      exact hdisj p hp
  obtain ⟨s4, hra, hg4, hpres4, hget4, hmem4, hcalls4, hroot4, href4, ht4, hnid4, hlh4, hlf4⟩ :=
    registerAll_spec hok hagree children { captureRoot (cancelCurrentTimer s) with locals := [], calls := (captureRoot (cancelCurrentTimer s)).calls ++ (objValues (captureRoot (cancelCurrentTimer s)).locals).map (fun h => Call.unreg h.mods h.code) } hwfC hnodup (fun c _ => rfl)
      (fun c hc => by
        dsimp only
        rw [hs2g]
        exact hfresh c hc)
  obtain ⟨srg, srl, srr, src, srlh, srlf⟩ := scheduleRevert_fields timeout s4
  refine ⟨scheduleRevert timeout s4, ?_, ?_, ?_, ?_, ?_, ?_, ?_⟩
  · unfold withSnapshot
    rw [hcl, hra]
  · rw [srg, hg4]
    dsimp only
    exact hs2g
  · intro c hc
    rw [srl]
    exact hget4 c hc
  · intro p hp
    rw [srl] at hp
    rcases hmem4 p hp with h2 | h2
    · exact absurd h2 (List.not_mem_nil p)
    · exact h2
  · intro hroot
    rw [srr, hroot4]
    dsimp only
    rw [c2rn (by rw [c1r]; exact hroot), c1l]
  · intro r hroot
    rw [srr, hroot4]
    dsimp only
    exact c2rs r (by rw [c1r]; exact hroot)
  · rw [src, hcalls4]
    dsimp only
    rw [hs2c, hs2l, List.append_assoc]

/-! ## Timer bookkeeping invariant -/

/-- At most one revert timer is outstanding, and any live timer is the one
referenced by `timeoutRecoverRoot`. -/
def TimerInv (s : MState) : Prop :=
  (∀ t ∈ s.timers, s.timeoutRecoverRoot = some t.id) ∧ s.timers.length ≤ 1

/-- The timer invariant on an operation's outcome (also on the state
carried by a thrown error). -/
def ERTimerInv : ER → Prop
  | .ok s => TimerInv s
  | .error (_, s) => TimerInv s

theorem clearHandle_timers_nil (s : MState) (h : TimerInv s) :
    (clearHandle s.timeoutRecoverRoot s).timers = [] := by
  obtain ⟨h1, h2⟩ := h
  cases href : s.timeoutRecoverRoot with
  | none =>
    show s.timers = []
    cases ht : s.timers with
    | nil => rfl
    | cons a l =>
      have := h1 a (by rw [ht]; simp)
      rw [href] at this
      exact Option.noConfusion this
  | some tid =>
    show s.timers.filter (fun t => t.id != tid) = []
    rw [List.filter_eq_nil_iff]
    intro a ha
    have h3 := h1 a ha
    rw [href] at h3
    injection h3 with h3
    simp [h3]

theorem cancelCurrentTimer_timers_nil (s : MState) (h : TimerInv s) :
    (cancelCurrentTimer s).timers = [] := by
  have hch := clearHandle_timers_nil s h
  unfold cancelCurrentTimer
  cases href : s.timeoutRecoverRoot with
  | none =>
    rw [href] at hch
    show s.timers = []
    exact hch
  | some tid =>
    rw [href] at hch
    show (clearHandle (some tid) s).timers = []
    exact hch

/-- Timer-related fields untouched by an operation. -/
def SameTimerState (s s' : MState) : Prop :=
  s'.timers = s.timers ∧ s'.timeoutRecoverRoot = s.timeoutRecoverRoot ∧
    s'.nextTimerId = s.nextTimerId

/-- The timer-frame property on an operation's outcome. -/
def ERSameTimerState (s : MState) : ER → Prop
  | .ok s' => SameTimerState s s'
  | .error (_, s') => SameTimerState s s'

theorem timerInv_of_same {s s' : MState} (h : SameTimerState s s') (ht : TimerInv s) :
    TimerInv s' := by
  obtain ⟨h1, h2, h3⟩ := h
  obtain ⟨t1, t2⟩ := ht
  refine ⟨fun t htm => ?_, ?_⟩
  · rw [h2]
    exact t1 t (by rwa [h1] at htm)
  · rw [h1]
    exact t2

theorem unregister_sameTimerState (env : HotkManager) (hk : HotKey) (s : MState) :
    SameTimerState s (manager.unregister env hk s) := by
  simp only [manager.unregister]
  cases hok2 : (env.unregister hk.mods hk.code).ok
  · exact ⟨rfl, rfl, rfl⟩
  · exact ⟨rfl, rfl, rfl⟩

theorem register_sameTimerState (env : HotkManager) (hk : HotKey) (g : Bool) (s : MState) :
    ERSameTimerState s (manager.register env hk g s) := by
  simp only [manager.register]
  by_cases hdup : ((objGet s.locals hk.id).isSome || (objGet s.globals hk.id).isSome) = true
  · rw [if_pos hdup]
    exact ⟨rfl, rfl, rfl⟩
  · rw [if_neg hdup]
    cases hok2 : (env.register hk.mods hk.code).ok
    · exact ⟨rfl, rfl, rfl⟩
    · cases g
      · exact ⟨rfl, rfl, rfl⟩
      · exact ⟨rfl, rfl, rfl⟩

theorem foldl_unregister_sameTimerState (env : HotkManager) (l : List HotKey) (s : MState) :
    SameTimerState s (l.foldl (fun s h => manager.unregister env h s) s) := by
  induction l generalizing s with
  | nil => exact ⟨rfl, rfl, rfl⟩
  | cons hk t ih =>
    simp only [List.foldl_cons]
    have h1 := unregister_sameTimerState env hk s
    have h2 := ih (manager.unregister env hk s)
    exact ⟨h2.1.trans h1.1, h2.2.1.trans h1.2.1, h2.2.2.trans h1.2.2⟩

theorem clearLocals_sameTimerState (env : HotkManager) (s : MState) :
    SameTimerState s (clearLocals env s) :=
  foldl_unregister_sameTimerState env _ s

theorem registerAll_sameTimerState (env : HotkManager) (l : List HotKey) (s : MState) :
    ERSameTimerState s (registerAll env l s) := by
  induction l generalizing s with
  | nil => exact ⟨rfl, rfl, rfl⟩
  | cons hk t ih =>
    unfold registerAll
    have h1 := register_sameTimerState env hk false s
    cases hreg : manager.register env hk false s with
    | error e =>
      obtain ⟨m, se⟩ := e
      rw [hreg] at h1
      exact h1
    | ok s2 =>
      rw [hreg] at h1
      have h2 := ih s2
      show ERSameTimerState s (registerAll env t s2)
      cases hra : registerAll env t s2 with
      | error e =>
        obtain ⟨m, s3⟩ := e
        rw [hra] at h2
        exact ⟨h2.1.trans h1.1, h2.2.1.trans h1.2.1, h2.2.2.trans h1.2.2⟩
      | ok s3 =>
        rw [hra] at h2
        exact ⟨h2.1.trans h1.1, h2.2.1.trans h1.2.1, h2.2.2.trans h1.2.2⟩

/-! ## Claim C7 -/

theorem recoverRoot_spec {env : HotkManager} (hok : EnvAllOk env) (hagree : EnvAgrees env)
    (s : MState) (r : List HotKey) (hr : s.root = some r)
    (hkeyed : ∀ p ∈ s.locals, p.1 = p.2.id)
    (hwfL : ∀ p ∈ s.locals, TopWF env p.2)
    (hdisj : ∀ p ∈ s.locals, objGet s.globals p.1 = none)
    (htinv : TimerInv s)
    (hwfr : ∀ h ∈ r, TopWF env h)
    (hnodup : (r.map HotKey.id).Nodup)
    (hfresh : ∀ h ∈ r, objGet s.globals h.id = none) :
    ∃ s', manager.recoverRoot env s = .ok s' ∧
      s'.root = none ∧ s'.timeoutRecoverRoot = none ∧ s'.timers = [] ∧
      s'.globals = s.globals ∧
      (∀ h ∈ r, objGet s'.locals h.id = some h) ∧
      (∀ p ∈ s'.locals, p.2 ∈ r) ∧
      s'.calls = s.calls ++ (objValues s.locals).map (fun h => Call.unreg h.mods h.code)
                        ++ r.map (fun h => Call.reg h.mods h.code) ∧
      manager.recoverRoot env s' = .ok s' := by
  have hchg : (clearHandle s.timeoutRecoverRoot s).globals = s.globals := by
    cases href : s.timeoutRecoverRoot <;> simp [clearHandle, href]
  have hchl : (clearHandle s.timeoutRecoverRoot s).locals = s.locals := by
    cases href : s.timeoutRecoverRoot <;> simp [clearHandle, href]
  have hchc : (clearHandle s.timeoutRecoverRoot s).calls = s.calls := by
    cases href : s.timeoutRecoverRoot <;> simp [clearHandle, href]
  have hcht : (clearHandle s.timeoutRecoverRoot s).timers = [] := clearHandle_timers_nil s htinv
  have hcl : clearLocals env (clearHandle s.timeoutRecoverRoot s) = { clearHandle s.timeoutRecoverRoot s with locals := [], calls := (clearHandle s.timeoutRecoverRoot s).calls ++ (objValues (clearHandle s.timeoutRecoverRoot s).locals).map (fun h => Call.unreg h.mods h.code) } := by
    apply clearLocals_spec hok hagree
    · intro p hp
      rw [hchl] at hp
      rw [hkeyed p hp]
      exact hwfL p hp
    · intro p hp
      rw [hchl] at hp
      rw [hchg]
      exact hdisj p hp
  obtain ⟨s4, hra, hg4, hpres4, hget4, hmem4, hcalls4, hroot4, href4, ht4, hnid4, hlh4, hlf4⟩ :=
    registerAll_spec hok hagree r { clearHandle s.timeoutRecoverRoot s with locals := [], calls := (clearHandle s.timeoutRecoverRoot s).calls ++ (objValues (clearHandle s.timeoutRecoverRoot s).locals).map (fun h => Call.unreg h.mods h.code) } hwfr hnodup (fun c _ => rfl)
      (fun c hc => by
        dsimp only
        rw [hchg]
        exact hfresh c hc)
  refine ⟨{ s4 with root := none, timeoutRecoverRoot := none }, ?_, rfl, rfl, ?_, ?_, ?_, ?_, ?_, ?_⟩
  · unfold manager.recoverRoot
    rw [hr]
    show (match registerAll env r (clearLocals env (clearHandle s.timeoutRecoverRoot s)) with
      | .error e => Except.error e
      | .ok s => Except.ok { s with root := none, timeoutRecoverRoot := none }) = _
    rw [hcl, hra]
  · show s4.timers = []
    rw [ht4]
    dsimp only
    exact hcht
  · show s4.globals = s.globals
    rw [hg4]
    dsimp only
    exact hchg
  · intro h hh
    show objGet s4.locals h.id = some h
    exact hget4 h hh
  · intro p hp
    rcases hmem4 p hp with h2 | h2
    · exact absurd h2 (List.not_mem_nil p)
    · exact h2
  · show s4.calls = _
    rw [hcalls4]
    dsimp only
    rw [hchc, hchl, List.append_assoc]
  · unfold manager.recoverRoot
    rfl

/-- Claim C7: `recoverRoot()` is idempotent. With no pending snapshot it
is a perfect no-op (the same state, no native calls). With a pending
snapshot (under a well-behaved native core and well-formed state) it
unregisters the current locals, re-registers exactly the snapshotted
definitions as locals, clears the snapshot, the timer reference and the
live timer — and a second consecutive call changes nothing. -/
theorem claim_C7_recoverRoot_idempotent (env : HotkManager) (s : MState)
    (hok : EnvAllOk env) (hagree : EnvAgrees env)
    (hkeyed : ∀ p ∈ s.locals, p.1 = p.2.id)
    (hwfL : ∀ p ∈ s.locals, TopWF env p.2)
    (hdisj : ∀ p ∈ s.locals, objGet s.globals p.1 = none)
    (htinv : TimerInv s) :
    (s.root = none → manager.recoverRoot env s = .ok s) ∧
    (∀ r, s.root = some r →
      (∀ h ∈ r, TopWF env h) → (r.map HotKey.id).Nodup →
      (∀ h ∈ r, objGet s.globals h.id = none) →
      ∃ s', manager.recoverRoot env s = .ok s' ∧
        s'.root = none ∧ s'.timeoutRecoverRoot = none ∧ s'.timers = [] ∧
        s'.globals = s.globals ∧
        (∀ h ∈ r, objGet s'.locals h.id = some h) ∧
        (∀ p ∈ s'.locals, p.2 ∈ r) ∧
        s'.calls = s.calls ++ (objValues s.locals).map (fun h => Call.unreg h.mods h.code)
                          ++ r.map (fun h => Call.reg h.mods h.code) ∧
        manager.recoverRoot env s' = .ok s') := by
  refine ⟨?_, ?_⟩
  · intro hr
    unfold manager.recoverRoot
    rw [hr]
  · intro r hr hwfr hnodup hfresh
    exact recoverRoot_spec hok hagree s r hr hkeyed hwfL hdisj htinv hwfr hnodup hfresh

/-- Witness for claim C7 at concrete input: the descended state
`sDescended` with snapshot `[hkA]`; both the no-op direction (on the
recovered state) and the restoring direction are exercised. -/
theorem claim_C7_witness :
    ∃ s', manager.recoverRoot envOkId sDescended = .ok s' ∧
      s'.root = none ∧ s'.timeoutRecoverRoot = none ∧ s'.timers = [] ∧
      s'.globals = sDescended.globals ∧
      (∀ h ∈ [hkA], objGet s'.locals h.id = some h) ∧
      (∀ p ∈ s'.locals, p.2 ∈ [hkA]) ∧
      s'.calls = sDescended.calls ++ (objValues sDescended.locals).map (fun h => Call.unreg h.mods h.code) ++ [hkA].map (fun h => Call.reg h.mods h.code) ∧
      manager.recoverRoot envOkId s' = .ok s' := by
  have hkeyed : ∀ p ∈ sDescended.locals, p.1 = p.2.id := by
    intro p hp
    rcases List.mem_cons.mp hp with h1 | h1
    · subst h1; rfl
    · rcases List.mem_cons.mp h1 with h2 | h2
      · subst h2; rfl
      · exact absurd h2 (List.not_mem_nil p)
  have hwfL : ∀ p ∈ sDescended.locals, TopWF envOkId p.2 := by
    intro p hp
    rcases List.mem_cons.mp hp with h1 | h1
    · subst h1; rfl
    · rcases List.mem_cons.mp h1 with h2 | h2
      · subst h2; rfl
      · exact absurd h2 (List.not_mem_nil p)
  have hdisj : ∀ p ∈ sDescended.locals, objGet sDescended.globals p.1 = none :=
    fun p _ => rfl
  have htinv : TimerInv sDescended := by
    refine ⟨?_, by simp [sDescended]⟩
    intro t ht
    rcases List.mem_cons.mp ht with h1 | h1
    · subst h1; rfl
    · exact absurd h1 (List.not_mem_nil t)
  have hwfr : ∀ h ∈ [hkA], TopWF envOkId h := by
    intro h hh
    rcases List.mem_cons.mp hh with h1 | h1
    · subst h1; rfl
    · exact absurd h1 (List.not_mem_nil h)
  have hfresh : ∀ h ∈ [hkA], objGet sDescended.globals h.id = none := fun h _ => rfl
  exact (claim_C7_recoverRoot_idempotent envOkId sDescended envOkId_allOk envOkId_agrees hkeyed hwfL hdisj htinv).2
    [hkA] rfl hwfr (by simp) hfresh

theorem timerInv_of_timers_nil {s : MState} (h : s.timers = []) : TimerInv s := by
  refine ⟨fun t htm => ?_, ?_⟩
  · rw [h] at htm
    exact absurd htm (List.not_mem_nil t)
  · rw [h]
    simp

theorem recoverRoot_timerInv (env : HotkManager) (s : MState) (h : TimerInv s) :
    ERTimerInv (manager.recoverRoot env s) := by
  unfold manager.recoverRoot
  cases hr : s.root with
  | none => exact h
  | some r =>
    show ERTimerInv (match registerAll env r (clearLocals env (clearHandle s.timeoutRecoverRoot s)) with
      | .error e => Except.error e
      | .ok s => Except.ok { s with root := none, timeoutRecoverRoot := none })
    have hch : (clearHandle s.timeoutRecoverRoot s).timers = [] := clearHandle_timers_nil s h
    have hcls := clearLocals_sameTimerState env (clearHandle s.timeoutRecoverRoot s)
    have hclt : (clearLocals env (clearHandle s.timeoutRecoverRoot s)).timers = [] := by
      rw [hcls.1, hch]
    have hras := registerAll_sameTimerState env r (clearLocals env (clearHandle s.timeoutRecoverRoot s))
    cases hra : registerAll env r (clearLocals env (clearHandle s.timeoutRecoverRoot s)) with
    | error e =>
      obtain ⟨m, se⟩ := e
      rw [hra] at hras
      exact timerInv_of_timers_nil (by rw [hras.1, hclt])
    | ok s4 =>
      rw [hra] at hras
      have hs4t : s4.timers = [] := by rw [hras.1, hclt]
      exact timerInv_of_timers_nil hs4t

theorem withSnapshot_timer_spec (env : HotkManager) (l : List HotKey) (timeout : JsNum)
    (s : MState) (h : TimerInv s) :
    ERTimerInv (withSnapshot env l timeout s) ∧
    (∀ s', withSnapshot env l timeout s = .ok s' →
      (timeout.isNaN = false → ∃ tid, s'.timeoutRecoverRoot = some tid ∧
        s'.timers = [⟨tid, jsMin timeout (JsNum.fin 2147483647)⟩]) ∧
      (timeout.isNaN = true → s'.timers = [])) := by
  have hct : (cancelCurrentTimer s).timers = [] := cancelCurrentTimer_timers_nil s h
  have hcapt : (captureRoot (cancelCurrentTimer s)).timers = (cancelCurrentTimer s).timers :=
    (captureRoot_fields (cancelCurrentTimer s)).2.2.2.2.1
  have hclst := clearLocals_sameTimerState env (captureRoot (cancelCurrentTimer s))
  have h3t : (clearLocals env (captureRoot (cancelCurrentTimer s))).timers = [] := by
    rw [hclst.1, hcapt, hct]
  have hras := registerAll_sameTimerState env l (clearLocals env (captureRoot (cancelCurrentTimer s)))
  unfold withSnapshot
  cases hra : registerAll env l (clearLocals env (captureRoot (cancelCurrentTimer s))) with
  | error e =>
    obtain ⟨m, se⟩ := e
    rw [hra] at hras
    refine ⟨timerInv_of_timers_nil (by rw [hras.1, h3t]), ?_⟩
    intro s' hcontra
    exact Except.noConfusion (show (Except.error (m, se) : ER) = .ok s' from hcontra)
  | ok s4 =>
    rw [hra] at hras
    have hs4t : s4.timers = [] := by rw [hras.1, h3t]
    refine ⟨?_, ?_⟩
    · show TimerInv (scheduleRevert timeout s4)
      unfold scheduleRevert
      by_cases ht : (!timeout.isNaN) = true
      · rw [if_pos ht]
        refine ⟨fun t htm => ?_, ?_⟩
        · dsimp only at htm ⊢
          rw [hs4t] at htm
          have : t = ⟨s4.nextTimerId, jsMin timeout (JsNum.fin 2147483647)⟩ := by
            simpa using htm
          rw [this]
        · dsimp only
          rw [hs4t]
          simp
      · rw [if_neg ht]
        exact timerInv_of_timers_nil hs4t
    · intro s' heq
      have heq2 : (Except.ok (scheduleRevert timeout s4) : ER) = .ok s' := heq
      injection heq2 with heq3
      subst heq3
      constructor
      · intro hnn
        refine ⟨s4.nextTimerId, ?_, ?_⟩
        · unfold scheduleRevert
          rw [if_pos (show (!timeout.isNaN) = true by rw [hnn]; rfl)]
        · unfold scheduleRevert
          rw [if_pos (show (!timeout.isNaN) = true by rw [hnn]; rfl)]
          dsimp only
          rw [hs4t]
          rfl
      · intro hnn
        unfold scheduleRevert
        rw [if_neg (by rw [hnn]; simp)]
        exact hs4t

theorem expireTimer_timerInv (env : HotkManager) (tid : Nat) (s : MState) (h : TimerInv s) :
    ERTimerInv (expireTimer env tid s) := by
  unfold expireTimer
  by_cases hl : s.timers.any (fun t => t.id == tid) = true
  · rw [if_pos hl]
    apply recoverRoot_timerInv
    refine ⟨fun t htm => ?_, ?_⟩
    · exact h.1 t (List.mem_of_mem_filter htm)
    · exact le_trans (List.length_filter_le _ _) h.2
  · rw [if_neg hl]
    exact h

theorem fireSubactions_timerInv (env : HotkManager) (hk : HotKey) (s : MState)
    (h : TimerInv s) : ERTimerInv (hk.fireSubactions env s) := by
  unfold HotKey.fireSubactions
  by_cases he : hk._subactions.isEmpty = true
  · rw [if_pos he]
    exact recoverRoot_timerInv env s h
  · rw [if_neg he]
    exact (withSnapshot_timer_spec env _ _ s h).1

theorem fire_timerInv (env : HotkManager) (hk : HotKey) (now : Int) (s : MState)
    (h : TimerInv s) : ERTimerInv (hk.fire env now s) := by
  unfold HotKey.fire
  by_cases hg : hk._stroke = Stroke.Single ∨
      (s.lastHotKey = some hk.ref ∧ jsLeInt (now - s.lastFire) hk._strokeTimeout = true)
  · rw [if_pos hg]
    have h1 : TimerInv { s with lastFire := neverFired, calls := s.calls ++ [Call.act hk._action] } := ⟨h.1, h.2⟩
    have h2 := fireSubactions_timerInv env hk _ h1
    cases hfs : HotKey.fireSubactions env hk { s with lastFire := neverFired, calls := s.calls ++ [Call.act hk._action] } with
    | error e =>
      obtain ⟨m, se⟩ := e
      rw [hfs] at h2
      exact h2
    | ok s3 =>
      rw [hfs] at h2
      exact ⟨h2.1, h2.2⟩
  · rw [if_neg hg]
    exact ⟨h.1, h.2⟩

theorem handleEvent_timerInv (env : HotkManager) (event : Event) (now : Int) (s : MState)
    (h : TimerInv s) : ERTimerInv (manager.handleEvent env event now s) := by
  unfold manager.handleEvent
  by_cases he : event.eventType = EventType.Pressed
  · simp only [he, if_true]
    cases hh : (objGet s.globals event.id).orElse (fun _ => objGet s.locals event.id) with
    | none => exact h
    | some hk => exact fire_timerInv env hk now s h
  · simp only [he, if_false]
    exact h

/-! ## Claim C9 -/

/-- Claim C9 as stated is false: entering a subaction context with the
(non-finite) timeout `+Infinity` still schedules a revert timer, with the
delay clamped to 2147483647 ms; the source's guard is `!isNaN(timeout)`,
not finiteness. -/
theorem claim_C9_counterexample :
    JsNum.posInf.isFinite = false ∧
    (withSnapshot envOkId [] JsNum.posInf initState).map
        (fun s => (s.timers.map Timer.delay, s.timeoutRecoverRoot)) =
      .ok ([JsNum.fin 2147483647], some 0) :=
  ⟨rfl, rfl⟩

/-- Claim C9, amended: at most one revert timer is outstanding at any time
(the invariant `TimerInv` holds initially and is preserved by entering a
subaction context, by `recoverRoot`, by a timer expiry and by event
handling — the context entry cancels any existing timer before scheduling);
a new timer is scheduled exactly when the timeout is not NaN (so also for
an infinite timeout), with delay `Math.min(timeout, 2147483647)`; and the
expiry of a live timer performs `manager.recoverRoot()`. -/
theorem claim_C9_timer (env : HotkManager) :
    TimerInv initState ∧
    (∀ l timeout s, TimerInv s → ERTimerInv (withSnapshot env l timeout s)) ∧
    (∀ s, TimerInv s → ERTimerInv (manager.recoverRoot env s)) ∧
    (∀ tid s, TimerInv s → ERTimerInv (expireTimer env tid s)) ∧
    (∀ event now s, TimerInv s → ERTimerInv (manager.handleEvent env event now s)) ∧
    (∀ l timeout s s', TimerInv s → withSnapshot env l timeout s = .ok s' →
      (timeout.isNaN = false → ∃ tid, s'.timeoutRecoverRoot = some tid ∧
        s'.timers = [⟨tid, jsMin timeout (JsNum.fin 2147483647)⟩]) ∧
      (timeout.isNaN = true → s'.timers = [])) ∧
    (∀ tid s, s.timers.any (fun t => t.id == tid) = true →
      expireTimer env tid s =
        manager.recoverRoot env { s with timers := s.timers.filter (fun t => t.id != tid) }) := by
  refine ⟨?_, ?_, ?_, ?_, ?_, ?_, ?_⟩
  · exact timerInv_of_timers_nil rfl
  · intro l timeout s h
    exact (withSnapshot_timer_spec env l timeout s h).1
  · intro s h
    exact recoverRoot_timerInv env s h
  · intro tid s h
    exact expireTimer_timerInv env tid s h
  · intro event now s h
    exact handleEvent_timerInv env event now s h
  · intro l timeout s s' h heq
    exact (withSnapshot_timer_spec env l timeout s h).2 s' heq
  · intro tid s hl
    unfold expireTimer
    rw [if_pos hl]

/-- Witness for the amended claim C9 at concrete input: entering a
subaction context with no children and a 500 ms timeout from the initial
state preserves the invariant and schedules exactly one timer. -/
theorem claim_C9_witness :
    TimerInv initState ∧
    ERTimerInv (withSnapshot envOkId [] (JsNum.fin 500) initState) ∧
    ((JsNum.fin 500).isNaN = false → ∃ tid,
      (MState.mk [] [] (some []) (some 0) [⟨0, JsNum.fin 500⟩] 1 none neverFired []).timeoutRecoverRoot = some tid ∧
      (MState.mk [] [] (some []) (some 0) [⟨0, JsNum.fin 500⟩] 1 none neverFired []).timers = [⟨tid, jsMin (JsNum.fin 500) (JsNum.fin 2147483647)⟩]) := by
  have h0 : TimerInv initState := (claim_C9_timer envOkId).1
  refine ⟨h0, (claim_C9_timer envOkId).2.1 [] (JsNum.fin 500) initState h0, ?_⟩
  exact ((claim_C9_timer envOkId).2.2.2.2.2.1 [] (JsNum.fin 500) initState
    (MState.mk [] [] (some []) (some 0) [⟨0, JsNum.fin 500⟩] 1 none neverFired []) h0 rfl).1

/-- A hotkey registered globally in the C6 witness state. -/
def hkG : HotKey := hotKey envOkId 6 [] 40

/-- A state with one local (`hkB`) and one global (`hkG`) hotkey, at root. -/
def sC6 : MState :=
  { globals := [(40, hkG)], locals := [(20, hkB)], root := none, timeoutRecoverRoot := none,
    timers := [], nextTimerId := 0, lastHotKey := none, lastFire := neverFired, calls := [] }

/-- Witness for claim C6 at concrete input: entering the subaction context
`[hkA]` with a 500 ms timeout from `sC6`. -/
theorem claim_C6_witness :
    ∃ s', withSnapshot envOkId [hkA] (JsNum.fin 500) sC6 = .ok s' ∧
      s'.globals = sC6.globals ∧
      (∀ c ∈ [hkA], objGet s'.locals c.id = some c) ∧
      (∀ p ∈ s'.locals, p.2 ∈ [hkA]) ∧
      (sC6.root = none → s'.root = some (objValues sC6.locals)) ∧
      (∀ r, sC6.root = some r → s'.root = some r) ∧
      s'.calls = sC6.calls ++ (objValues sC6.locals).map (fun h => Call.unreg h.mods h.code) ++ [hkA].map (fun h => Call.reg h.mods h.code) := by
  have hkeyed : ∀ p ∈ sC6.locals, p.1 = p.2.id := by
    intro p hp
    rcases List.mem_cons.mp hp with h1 | h1
    · subst h1; rfl
    · exact absurd h1 (List.not_mem_nil p)
  have hwfL : ∀ p ∈ sC6.locals, TopWF envOkId p.2 := by
    intro p hp
    rcases List.mem_cons.mp hp with h1 | h1
    · subst h1; rfl
    · exact absurd h1 (List.not_mem_nil p)
  have hdisj : ∀ p ∈ sC6.locals, objGet sC6.globals p.1 = none := by
    intro p hp
    rcases List.mem_cons.mp hp with h1 | h1
    · subst h1; rfl
    · exact absurd h1 (List.not_mem_nil p)
  have hwfC : ∀ c ∈ [hkA], TopWF envOkId c := by
    intro c hc
    rcases List.mem_cons.mp hc with h1 | h1
    · subst h1; rfl
    · exact absurd h1 (List.not_mem_nil c)
  have hfresh : ∀ c ∈ [hkA], objGet sC6.globals c.id = none := by
    intro c hc
    rcases List.mem_cons.mp hc with h1 | h1
    · subst h1; rfl
    · exact absurd h1 (List.not_mem_nil c)
  exact claim_C6_enter_subaction_context envOkId [hkA] (JsNum.fin 500) sC6
    envOkId_allOk envOkId_agrees hkeyed hwfL hdisj hwfC (by simp) hfresh

end Hotk
